import Mathlib

/-!
Verification of the ray-tracer core (`vec3.rs`, `hittable.rs`, `sphere.rs`,
`main.rs`) against its natural-language specification.

Floating-point doubles are embedded as real numbers (exact arithmetic);
`f64::sqrt` becomes `Real.sqrt`, and the saturating `as u8` cast of a value
already confined to `[0, 255.744]` becomes the natural-number floor.
-/

namespace RayTracer

noncomputable section

/-- Vec3 from `vec3.rs`: a triple of scalars, reused as point and RGB color. -/
@[ext]
structure Vec3 where
  x : ℝ
  y : ℝ
  z : ℝ

/-- Color is an alias of Vec3, as in `vec3.rs`. -/
abbrev Color := Vec3

/-- Point3 is an alias of Vec3, as in `vec3.rs`. -/
abbrev Point3 := Vec3

namespace Vec3

/-- Vec3::zero. -/
def zero : Vec3 := ⟨0, 0, 0⟩

/-- Componentwise addition (impl Add for Vec3). -/
def add (a b : Vec3) : Vec3 := ⟨a.x + b.x, a.y + b.y, a.z + b.z⟩

/-- Componentwise subtraction (impl Sub for Vec3). -/
def sub (a b : Vec3) : Vec3 := ⟨a.x - b.x, a.y - b.y, a.z - b.z⟩

/-- Componentwise negation (impl Neg for Vec3). -/
def neg (a : Vec3) : Vec3 := ⟨-a.x, -a.y, -a.z⟩

/-- Scalar multiplication (impl Mul<f64> for Vec3). -/
def smul (k : ℝ) (a : Vec3) : Vec3 := ⟨a.x * k, a.y * k, a.z * k⟩

/-- Componentwise multiplication (impl Mul for Vec3). -/
def cmul (a b : Vec3) : Vec3 := ⟨a.x * b.x, a.y * b.y, a.z * b.z⟩

/-- Scalar division, written `(1.0 / rhs) * self` in the source
(impl Div<f64> for Vec3). -/
def divScalar (a : Vec3) (k : ℝ) : Vec3 := smul (1 / k) a

/-- Vec3::dot. -/
def dot (a b : Vec3) : ℝ := a.x * b.x + a.y * b.y + a.z * b.z

/-- Vec3::length_squared. -/
def length_squared (a : Vec3) : ℝ := a.x * a.x + a.y * a.y + a.z * a.z

/-- Vec3::length. -/
noncomputable def length (a : Vec3) : ℝ := Real.sqrt a.length_squared

/-- Vec3::unit_vector, `*self / self.length()`. -/
noncomputable def unit_vector (a : Vec3) : Vec3 := a.divScalar a.length

/-- Vec3::reflect, `*v - *n * 2.0 * v.dot(n)`. -/
def reflect (v n : Vec3) : Vec3 := sub v (smul (2 * dot v n) n)

end Vec3

/-- Free function `clamp` from `vec3.rs`. -/
noncomputable def clamp (x mn mx : ℝ) : ℝ :=
  if x < mn then mn else if x > mx then mx else x

/-- Color::to_rgb8 from `vec3.rs`: divide the accumulated color by the sample
count, gamma-correct with a square root, clamp to `[0, 0.999]`, scale by 256
and truncate to an 8-bit channel (the saturating `as u8` cast truncates, and
the operand always lies in `[0, 255.744]`, so it is a floor). -/
noncomputable def to_rgb8 (c : Color) (samples_per_pixel : ℕ) : ℕ × ℕ × ℕ :=
  let scale : ℝ := 1 / (samples_per_pixel : ℝ)
  (⌊256 * clamp (Real.sqrt (c.x * scale)) 0 0.999⌋₊,
   ⌊256 * clamp (Real.sqrt (c.y * scale)) 0 0.999⌋₊,
   ⌊256 * clamp (Real.sqrt (c.z * scale)) 0 0.999⌋₊)

/-- Modelled from the claim C4's wording, for refinement comparison only: each
channel would be `sqrt(mean / samples)` (with `mean` the arithmetic mean of
the per-sample colors, i.e. `accumulated / samples`) clamped and scaled the
same way. This is NOT the source's formula. -/
noncomputable def to_rgb8_claimed (c : Color) (samples_per_pixel : ℕ) : ℕ × ℕ × ℕ :=
  (⌊256 * clamp (Real.sqrt (c.x / (samples_per_pixel : ℝ) / (samples_per_pixel : ℝ))) 0 0.999⌋₊,
   ⌊256 * clamp (Real.sqrt (c.y / (samples_per_pixel : ℝ) / (samples_per_pixel : ℝ))) 0 0.999⌋₊,
   ⌊256 * clamp (Real.sqrt (c.z / (samples_per_pixel : ℝ) / (samples_per_pixel : ℝ))) 0 0.999⌋₊)

/-- Ray from the repository's `ray.rs` (the file is referenced by every module
but absent from the sources): an origin point plus a direction vector. -/
structure Ray where
  origin : Point3
  direction : Vec3

/-- Modelled from the spec: `ray.rs` is absent from the sources; the spec
defines point evaluation as `at(t) = origin + t * direction` with no
validation of `t`. -/
def Ray.at (r : Ray) (t : ℝ) : Point3 :=
  Vec3.add r.origin (Vec3.smul t r.direction)

/-- HitRecord from `hittable.rs`. The material is an `Arc<dyn Material>` in
the source; materials live in the absent `material.rs`, so the record stores
an opaque material identifier. -/
structure HitRecord where
  p : Point3
  normal : Vec3
  t : ℝ
  front_face : Bool
  mat : ℕ

/-- HitRecord::new from `hittable.rs`: `front_face = dot(r.direction,
outward_normal) < 0`; the stored normal is the outward normal when
`front_face` holds and its negation otherwise. -/
noncomputable def HitRecord.new (p : Point3) (outward_normal : Vec3) (t : ℝ)
    (r : Ray) (mat : ℕ) : HitRecord :=
  let front_face : Bool := Vec3.dot r.direction outward_normal < 0
  let normal := if front_face then outward_normal else Vec3.neg outward_normal
  ⟨p, normal, t, front_face, mat⟩

/-- Sphere from `sphere.rs` (material as opaque identifier). -/
structure Sphere where
  center : Point3
  radius : ℝ
  mat : ℕ

namespace Sphere

/-- Intermediate `oc = r.origin - self.center` of Sphere::hit. -/
def oc (s : Sphere) (r : Ray) : Vec3 := Vec3.sub r.origin s.center

/-- Intermediate `a = r.direction.length_squared()` of Sphere::hit. -/
def qa (s : Sphere) (r : Ray) : ℝ := r.direction.length_squared

/-- Intermediate `half_b = oc.dot(&r.direction)` of Sphere::hit. -/
def half_b (s : Sphere) (r : Ray) : ℝ := Vec3.dot (s.oc r) r.direction

/-- Intermediate `c = oc.length_squared() - radius * radius` of Sphere::hit. -/
def qc (s : Sphere) (r : Ray) : ℝ :=
  (s.oc r).length_squared - s.radius * s.radius

/-- Intermediate `discriminant = half_b * half_b - a * c` of Sphere::hit. -/
def disc (s : Sphere) (r : Ray) : ℝ := s.half_b r * s.half_b r - s.qa r * s.qc r

/-- The first candidate root `(-half_b - sqrt(discriminant)) / a` of
Sphere::hit. -/
noncomputable def root1 (s : Sphere) (r : Ray) : ℝ :=
  (-s.half_b r - Real.sqrt (s.disc r)) / s.qa r

/-- The second candidate root `(-half_b + sqrt(discriminant)) / a` of
Sphere::hit. -/
noncomputable def root2 (s : Sphere) (r : Ray) : ℝ :=
  (-s.half_b r + Real.sqrt (s.disc r)) / s.qa r

/-- The hit record Sphere::hit builds from an accepted root: point `r.at
(root)`, outward normal `(p - center) / radius`. -/
noncomputable def mkRec (s : Sphere) (r : Ray) (root : ℝ) : HitRecord :=
  let p := r.at root
  let outward_normal := (Vec3.sub p s.center).divScalar s.radius
  HitRecord.new p outward_normal root r s.mat

/-- Sphere::hit from `sphere.rs`: no hit when the discriminant is negative;
otherwise take the root `(-half_b - sqrt(d)) / a`, and if it fails the range
test `root < t_min || root > t_max`, retry with `(-half_b + sqrt(d)) / a`;
if that also fails, no hit. -/
noncomputable def hit (s : Sphere) (r : Ray) (t_min t_max : ℝ) :
    Option HitRecord :=
  if s.disc r < 0 then none
  else if s.root1 r < t_min ∨ s.root1 r > t_max then
    if s.root2 r < t_min ∨ s.root2 r > t_max then none
    else some (s.mkRec r (s.root2 r))
  else some (s.mkRec r (s.root1 r))

end Sphere

/-- A member of the scene, modelling the `Hittable` capability of
`hittable.rs` at the level the spec describes it: a surface is characterised
by the set of parameters at which it intersects a given ray (`hits`, a finite
list, e.g. the at most two quadratic roots of a sphere) together with the hit
record it builds at each such parameter (`record`). Its `hit` function
(`memberHit` below) reports the nearest of those parameters inside the
queried interval, exactly as `Sphere::hit` does for its two roots. -/
structure Surface where
  hits : Ray → List ℝ
  record : Ray → ℝ → HitRecord

/-- Minimum of a list of reals, `none` on the empty list. -/
def listMin : List ℝ → Option ℝ
  | [] => none
  | t :: ts =>
    match listMin ts with
    | none => some t
    | some u => some (min t u)

/-- Upper bounds in the scene scan are either a real number or absent,
the absent case modelling the `f64::INFINITY` initial bound of
`ray_color`'s scene query. -/
def leBound (t : ℝ) : Option ℝ → Prop
  | none => True
  | some b => t ≤ b

instance (t : ℝ) (b : Option ℝ) : Decidable (leBound t b) := by
  cases b <;> simp [leBound] <;> infer_instance

/-- Membership of a parameter in the closed query interval `[a, b]` (upper
bound absent = unbounded). `Sphere::hit` rejects a root iff
`root < t_min || root > t_max`, so acceptance is the closed interval. -/
def inInterval (a : ℝ) (b : Option ℝ) (t : ℝ) : Prop := a ≤ t ∧ leBound t b

instance (a : ℝ) (b : Option ℝ) (t : ℝ) : Decidable (inInterval a b t) := by
  unfold inInterval; infer_instance

/-- The nearest-hit report of one scene member on the interval `[a, b]`:
the least of its hit parameters lying in the interval, turned into its hit
record; `none` when no hit parameter lies in the interval. -/
def memberHit (s : Surface) (r : Ray) (a : ℝ) (b : Option ℝ) :
    Option HitRecord :=
  (listMin ((s.hits r).filter (fun t => decide (inInterval a b t)))).map
    (s.record r)

/-- The scan loop of `HittableList::hit` from `hittable.rs`: walk the member
list keeping the best record so far and a shrinking upper bound
`closest_so_far`; a member producing a hit replaces the running result and
tightens the bound to that hit's `t`. -/
def listHitGo (r : Ray) (t_min : ℝ) :
    List Surface → Option ℝ → Option HitRecord → Option HitRecord
  | [], _, best => best
  | s :: rest, closest, best =>
    match memberHit s r t_min closest with
    | some h => listHitGo r t_min rest (some h.t) (some h)
    | none => listHitGo r t_min rest closest best

/-- HittableList::hit from `hittable.rs`: scan all members with
`closest_so_far` initialised to the caller's `t_max` and no hit yet. -/
def listHit (objects : List Surface) (r : Ray) (t_min t_max : ℝ) :
    Option HitRecord :=
  listHitGo r t_min objects (some t_max) none

/-- The scene query `world.hit(r, 0.001, f64::INFINITY)` made by `ray_color`
in `main.rs`: the same scan with an unbounded initial upper bound. -/
def worldHit (objects : List Surface) (r : Ray) (t_min : ℝ) :
    Option HitRecord :=
  listHitGo r t_min objects none none

/-- ray_color from `main.rs`. Materials live in the absent `material.rs`, so
the scatter dispatch `rec.mat.scatter(r, &rec)` is abstracted as a function
argument obeying the spec's scatter contract: given the incoming ray and the
hit record, either an (attenuation, scattered ray) pair or absorption. Depth
zero returns black; a hit either recurses on the scattered ray with
`depth - 1` under componentwise attenuation or returns black on absorption;
a miss returns the background gradient. -/
def ray_color (scatter : Ray → HitRecord → Option (Color × Ray))
    (world : List Surface) : Ray → ℕ → Color
  | _, 0 => Vec3.zero
  | r, Nat.succ depth =>
    match worldHit world r 0.001 with
    | some rec0 =>
      match scatter r rec0 with
      | some (atten, scattered) =>
        Vec3.cmul atten (ray_color scatter world scattered depth)
      | none => Vec3.zero
    | none =>
      let unit_direction := r.direction.unit_vector
      let t := 0.5 * (unit_direction.y + 1)
      Vec3.add (Vec3.smul (1 - t) ⟨1, 1, 1⟩) (Vec3.smul t ⟨0.5, 0.7, 1.0⟩)

/-- Number of recursive bounces `ray_color` performs: mirrors `ray_color`,
counting one for each recursion on a scattered ray. -/
def ray_bounce_count (scatter : Ray → HitRecord → Option (Color × Ray))
    (world : List Surface) : Ray → ℕ → ℕ
  | _, 0 => 0
  | r, Nat.succ depth =>
    match worldHit world r 0.001 with
    | some rec0 =>
      match scatter r rec0 with
      | some (_, scattered) => 1 + ray_bounce_count scatter world scattered depth
      | none => 0
    | none => 0

end

/-! Properties of the list-minimum helper. -/

theorem listMin_eq_none_iff (l : List ℝ) : listMin l = none ↔ l = [] := by
  cases l with
  | nil => simp [listMin]
  | cons t ts =>
    simp only [listMin]
    cases listMin ts <;> simp

theorem listMin_mem {l : List ℝ} {m : ℝ} (h : listMin l = some m) : m ∈ l := by
  induction l generalizing m with
  | nil => simp [listMin] at h
  | cons t ts ih =>
    simp only [listMin] at h
    cases hts : listMin ts with
    | none => rw [hts] at h; simp at h; simp [h]
    | some u =>
      rw [hts] at h
      simp at h
      rcases min_choice t u with hmin | hmin
      · rw [hmin] at h; simp [← h]
      · rw [hmin] at h; subst h; exact List.mem_cons_of_mem _ (ih hts)

theorem listMin_le {l : List ℝ} {m : ℝ} (h : listMin l = some m) :
    ∀ u ∈ l, m ≤ u := by
  induction l generalizing m with
  | nil => simp [listMin] at h
  | cons t ts ih =>
    intro u hu
    simp only [listMin] at h
    cases hts : listMin ts with
    | none =>
      rw [hts] at h
      simp at h
      rcases List.mem_cons.mp hu with rfl | hu'
      · exact le_of_eq h.symm
      · exact absurd ((listMin_eq_none_iff ts).mp hts ▸ hu') (by simp)
    | some v =>
      rw [hts] at h
      simp at h
      subst h
      rcases List.mem_cons.mp hu with rfl | hu'
      · exact min_le_left _ _
      · exact le_trans (min_le_right _ _) (ih hts u hu')

theorem listMin_isSome_of_mem {l : List ℝ} {t : ℝ} (h : t ∈ l) :
    ∃ m, listMin l = some m := by
  cases hl : listMin l with
  | none => rw [(listMin_eq_none_iff l).mp hl] at h; simp at h
  | some m => exact ⟨m, rfl⟩

/-! Characterisation of a single member's nearest-hit report. -/

theorem leBound_of_le {t u : ℝ} {b : Option ℝ} (htu : t ≤ u)
    (hu : leBound u b) : leBound t b := by
  cases b with
  | none => trivial
  | some v => exact le_trans htu hu

theorem memberHit_eq_none_iff (s : Surface) (r : Ray) (a : ℝ) (b : Option ℝ) :
    memberHit s r a b = none ↔ ∀ t ∈ s.hits r, ¬ inInterval a b t := by
  simp only [memberHit, Option.map_eq_none', listMin_eq_none_iff,
    List.filter_eq_nil_iff, decide_eq_true_eq]

theorem memberHit_some {s : Surface} {r : Ray} {a : ℝ} {b : Option ℝ}
    {h : HitRecord} (hm : memberHit s r a b = some h) :
    ∃ t, h = s.record r t ∧ t ∈ s.hits r ∧ inInterval a b t ∧
      ∀ u ∈ s.hits r, inInterval a b u → t ≤ u := by
  simp only [memberHit, Option.map_eq_some'] at hm
  obtain ⟨t, ht, rfl⟩ := hm
  have hmem := listMin_mem ht
  have hle := listMin_le ht
  simp only [List.mem_filter, decide_eq_true_eq] at hmem
  refine ⟨t, rfl, hmem.1, hmem.2, ?_⟩
  intro u hu hiu
  exact hle u (List.mem_filter.mpr ⟨hu, by simpa using hiu⟩)

theorem memberHit_ne_none {s : Surface} {r : Ray} {a : ℝ} {b : Option ℝ}
    {t : ℝ} (ht : t ∈ s.hits r) (hit : inInterval a b t) :
    ∃ h, memberHit s r a b = some h := by
  have : t ∈ (s.hits r).filter (fun u => decide (inInterval a b u)) :=
    List.mem_filter.mpr ⟨ht, by simpa using hit⟩
  obtain ⟨m, hm⟩ := listMin_isSome_of_mem this
  exact ⟨s.record r m, by simp [memberHit, hm]⟩

/-- No member of the scene has a hit parameter inside the query interval. -/
def NoHitIn (objs : List Surface) (r : Ray) (a : ℝ) (b : Option ℝ) : Prop :=
  ∀ s ∈ objs, ∀ t ∈ s.hits r, ¬ inInterval a b t

/-! Correctness of the `HittableList::hit` scan loop. -/

theorem listHitGo_of_noHit (r : Ray) (a : ℝ) :
    ∀ (objs : List Surface) (closest : Option ℝ) (best : Option HitRecord),
      NoHitIn objs r a closest → listHitGo r a objs closest best = best := by
  intro objs
  induction objs with
  | nil => intro _ _ _; rfl
  | cons s rest ih =>
    intro closest best hno
    have hs : memberHit s r a closest = none := by
      rw [memberHit_eq_none_iff]
      exact hno s (List.mem_cons_self s rest)
    rw [listHitGo, hs]
    exact ih closest best fun s' hs' => hno s' (List.mem_cons_of_mem _ hs')

theorem listHitGo_spec (r : Ray) (a : ℝ) :
    ∀ (objs : List Surface) (closest : Option ℝ) (best : Option HitRecord),
      (∀ s ∈ objs, ∀ t, (s.record r t).t = t) →
      ¬ NoHitIn objs r a closest →
      ∃ h, listHitGo r a objs closest best = some h ∧
        (∃ s ∈ objs, h.t ∈ s.hits r ∧ h = s.record r h.t) ∧
        inInterval a closest h.t ∧
        (∀ s ∈ objs, ∀ t ∈ s.hits r, inInterval a closest t → h.t ≤ t) := by
  intro objs
  induction objs with
  | nil =>
    intro closest best _ hne
    exact absurd (fun s hs => absurd hs (by simp)) hne
  | cons s rest ih =>
    intro closest best hrec hne
    have hrec_s := hrec s (List.mem_cons_self s rest)
    have hrec_rest : ∀ s' ∈ rest, ∀ t, (s'.record r t).t = t :=
      fun s' hs' => hrec s' (List.mem_cons_of_mem _ hs')
    cases hm : memberHit s r a closest with
    | none =>
      have hsno : ∀ t ∈ s.hits r, ¬ inInterval a closest t :=
        (memberHit_eq_none_iff s r a closest).mp hm
      have hne' : ¬ NoHitIn rest r a closest := by
        intro hno
        exact hne fun s' hs' => by
          rcases List.mem_cons.mp hs' with rfl | hmem
          · exact hsno
          · exact hno s' hmem
      obtain ⟨h, hres, ⟨s', hs', hmem, heq⟩, hint, hmin⟩ :=
        ih closest best hrec_rest hne'
      rw [listHitGo, hm]
      refine ⟨h, hres, ⟨s', List.mem_cons_of_mem _ hs', hmem, heq⟩, hint, ?_⟩
      intro s'' hs'' t ht hit
      rcases List.mem_cons.mp hs'' with rfl | hmem'
      · exact absurd hit (hsno t ht)
      · exact hmin s'' hmem' t ht hit
    | some h1 =>
      obtain ⟨t1, h1eq, ht1mem, ht1int, ht1min⟩ := memberHit_some hm
      have ht1 : h1.t = t1 := by rw [h1eq]; exact hrec_s t1
      rw [listHitGo, hm]
      dsimp only
      by_cases hc : NoHitIn rest r a (some h1.t)
      · rw [listHitGo_of_noHit r a rest (some h1.t) (some h1) hc]
        refine ⟨h1, rfl, ⟨s, List.mem_cons_self s rest, ?_, ?_⟩, ?_, ?_⟩
        · rw [ht1]; exact ht1mem
        · rw [ht1]; exact h1eq
        · rw [ht1]; exact ht1int
        · intro s'' hs'' t ht hit
          rcases List.mem_cons.mp hs'' with rfl | hmem'
          · rw [ht1]; exact ht1min t ht hit
          · have hnot := hc s'' hmem' t ht
            have hgt : ¬ (t ≤ h1.t) := fun hle => hnot ⟨hit.1, hle⟩
            exact le_of_not_le hgt
      · obtain ⟨h2, hres, ⟨s', hs', hmem, heq⟩, hint2, hmin2⟩ :=
          ih (some h1.t) (some h1) hrec_rest hc
        have h2le : h2.t ≤ h1.t := hint2.2
        refine ⟨h2, hres, ⟨s', List.mem_cons_of_mem _ hs', hmem, heq⟩, ?_, ?_⟩
        · exact ⟨hint2.1, leBound_of_le (le_trans h2le (le_of_eq ht1)) ht1int.2⟩
        · intro s'' hs'' t ht hit
          rcases List.mem_cons.mp hs'' with rfl | hmem'
          · exact le_trans (le_trans h2le (le_of_eq ht1)) (ht1min t ht hit)
          · by_cases hth : t ≤ h1.t
            · exact hmin2 s'' hmem' t ht ⟨hit.1, hth⟩
            · exact le_trans h2le (le_of_not_ge hth)

/-- C1: for every ray, interval and scene of nearest-reporting members,
`HittableList::hit` returns `none` exactly when no member hits inside the
closed interval (in particular always `none` on the empty scene), and any
returned record is a member's hit record whose parameter is inside the
interval and is least among all member hit parameters inside the interval. -/
theorem hittableList_hit_closest (objs : List Surface) (r : Ray)
    (t_min t_max : ℝ) (hrec : ∀ s ∈ objs, ∀ t, (s.record r t).t = t) :
    (listHit objs r t_min t_max = none ↔
      ∀ s ∈ objs, ∀ t ∈ s.hits r, ¬ (t_min ≤ t ∧ t ≤ t_max)) ∧
    (∀ h, listHit objs r t_min t_max = some h →
      (t_min ≤ h.t ∧ h.t ≤ t_max) ∧
      (∃ s ∈ objs, h.t ∈ s.hits r ∧ h = s.record r h.t) ∧
      (∀ s ∈ objs, ∀ t ∈ s.hits r, t_min ≤ t → t ≤ t_max → h.t ≤ t)) ∧
    listHit ([] : List Surface) r t_min t_max = none := by
  refine ⟨⟨?_, ?_⟩, ?_, rfl⟩
  · intro hnone s hs t ht hint
    have hne : ¬ NoHitIn objs r t_min (some t_max) :=
      fun hno => hno s hs t ht hint
    obtain ⟨h, hres, -, -, -⟩ :=
      listHitGo_spec r t_min objs (some t_max) none hrec hne
    rw [listHit] at hnone
    rw [hnone] at hres
    cases hres
  · intro hno
    exact listHitGo_of_noHit r t_min objs (some t_max) none hno
  · intro h hsome
    have hne : ¬ NoHitIn objs r t_min (some t_max) := by
      intro hno
      rw [listHit, listHitGo_of_noHit r t_min objs (some t_max) none hno]
        at hsome
      cases hsome
    obtain ⟨h', hres, hmem, hint, hmin⟩ :=
      listHitGo_spec r t_min objs (some t_max) none hrec hne
    rw [listHit] at hsome
    rw [hsome] at hres
    injection hres with hh
    subst hh
    exact ⟨⟨hint.1, hint.2⟩, hmem,
      fun s hs t ht h1 h2 => hmin s hs t ht ⟨h1, h2⟩⟩

/-- Sample hit record builder whose parameter field is the hit parameter. -/
def testRecord : Ray → ℝ → HitRecord :=
  fun _ t => ⟨Vec3.zero, ⟨0, 0, 1⟩, t, true, 0⟩

/-- Sample scene member hitting at parameters 2 and 1. -/
def surfA : Surface := ⟨fun _ => [2, 1], testRecord⟩

/-- Sample scene member hitting at parameter 3. -/
def surfB : Surface := ⟨fun _ => [3], testRecord⟩

/-- Witness for C1: on a one-member scene hitting at parameters 2 and 1,
the scan does not return `none` on the interval `[0, 10]`. -/
theorem hittableList_hit_closest_witness :
    listHit [surfA] ⟨⟨0, 0, 0⟩, ⟨0, 0, 1⟩⟩ 0 10 ≠ none := by
  intro hnone
  have hrec : ∀ s ∈ [surfA], ∀ t,
      (s.record ⟨⟨0, 0, 0⟩, ⟨0, 0, 1⟩⟩ t).t = t := by
    intro s hs t
    rw [List.mem_singleton] at hs
    subst hs
    rfl
  have := (hittableList_hit_closest [surfA] ⟨⟨0, 0, 0⟩, ⟨0, 0, 1⟩⟩ 0 10
    hrec).1.mp hnone surfA (List.mem_singleton.mpr rfl) 1 (by simp [surfA])
  exact this (by norm_num)

/-- C7: the scan result is invariant under reordering the scene when no two
distinct members share a hit parameter. -/
theorem hittableList_hit_order_irrelevant (objs objs' : List Surface)
    (r : Ray) (t_min t_max : ℝ) (hperm : objs.Perm objs')
    (hrec : ∀ s ∈ objs, ∀ t, (s.record r t).t = t)
    (hdisj : ∀ s ∈ objs, ∀ s' ∈ objs, s ≠ s' →
      ∀ t, t ∈ s.hits r → t ∉ s'.hits r) :
    listHit objs r t_min t_max = listHit objs' r t_min t_max := by
  have hmem : ∀ s, s ∈ objs' ↔ s ∈ objs := fun s => hperm.mem_iff.symm
  have hrec' : ∀ s ∈ objs', ∀ t, (s.record r t).t = t :=
    fun s hs => hrec s ((hmem s).mp hs)
  by_cases hno : NoHitIn objs r t_min (some t_max)
  · have hno' : NoHitIn objs' r t_min (some t_max) :=
      fun s hs => hno s ((hmem s).mp hs)
    rw [listHit, listHit, listHitGo_of_noHit r t_min objs _ _ hno,
      listHitGo_of_noHit r t_min objs' _ _ hno']
  · have hno' : ¬ NoHitIn objs' r t_min (some t_max) :=
      fun hn => hno fun s hs => hn s ((hmem s).mpr hs)
    obtain ⟨h, hres, ⟨s, hs, hmemt, heq⟩, hint, hmin⟩ :=
      listHitGo_spec r t_min objs (some t_max) none hrec hno
    obtain ⟨h', hres', ⟨s', hs', hmemt', heq'⟩, hint', hmin'⟩ :=
      listHitGo_spec r t_min objs' (some t_max) none hrec' hno'
    have hs'objs : s' ∈ objs := (hmem s').mp hs'
    have hteq : h.t = h'.t :=
      le_antisymm (hmin s' hs'objs h'.t hmemt' hint')
        (hmin' s ((hmem s).mpr hs) h.t hmemt hint)
    have hseq : s = s' := by
      by_contra hne
      exact hdisj s hs s' hs'objs hne h.t hmemt (hteq ▸ hmemt')
    rw [listHit, listHit, hres, hres', heq, heq', hteq, hseq]

/-- Witness for C7: swapping a two-member scene with hit parameters
`{2, 1}` and `{3}` leaves the scan result unchanged on `[0, 10]`. -/
theorem hittableList_hit_order_irrelevant_witness :
    listHit [surfA, surfB] ⟨⟨0, 0, 0⟩, ⟨0, 0, 1⟩⟩ 0 10 =
    listHit [surfB, surfA] ⟨⟨0, 0, 0⟩, ⟨0, 0, 1⟩⟩ 0 10 := by
  refine hittableList_hit_order_irrelevant [surfA, surfB] [surfB, surfA]
    ⟨⟨0, 0, 0⟩, ⟨0, 0, 1⟩⟩ 0 10 (List.Perm.swap surfB surfA []) ?_ ?_
  · intro s hs t
    rcases List.mem_cons.mp hs with rfl | hs'
    · rfl
    · rw [List.mem_singleton] at hs'
      subst hs'
      rfl
  · intro s hs s' hs' hne t ht
    have hs0 : s = surfA ∨ s = surfB := by simpa using hs
    have hs0' : s' = surfA ∨ s' = surfB := by simpa using hs'
    rcases hs0 with rfl | rfl <;> rcases hs0' with rfl | rfl
    · exact absurd rfl hne
    · simp [surfA, surfB] at ht ⊢
      rcases ht with rfl | rfl <;> norm_num
    · simp [surfA, surfB] at ht ⊢
      subst ht
      norm_num
    · exact absurd rfl hne

/-! Basic vector lemmas. -/

theorem Vec3.dot_neg (a b : Vec3) :
    Vec3.dot a (Vec3.neg b) = -(Vec3.dot a b) := by
  simp only [Vec3.dot, Vec3.neg]; ring

theorem Vec3.length_squared_nonneg (v : Vec3) : 0 ≤ v.length_squared := by
  simp only [Vec3.length_squared]
  linarith [mul_self_nonneg v.x, mul_self_nonneg v.y, mul_self_nonneg v.z]

theorem Vec3.length_squared_pos {v : Vec3} (h : v ≠ Vec3.zero) :
    0 < v.length_squared := by
  rcases lt_or_eq_of_le v.length_squared_nonneg with hlt | heq
  · exact hlt
  · exfalso
    apply h
    have h0 : v.x * v.x + v.y * v.y + v.z * v.z = 0 := by
      simpa [Vec3.length_squared] using heq.symm
    have hx : v.x * v.x = 0 := by
      nlinarith [mul_self_nonneg v.x, mul_self_nonneg v.y, mul_self_nonneg v.z]
    have hy : v.y * v.y = 0 := by
      nlinarith [mul_self_nonneg v.x, mul_self_nonneg v.y, mul_self_nonneg v.z]
    have hz : v.z * v.z = 0 := by
      nlinarith [mul_self_nonneg v.x, mul_self_nonneg v.y, mul_self_nonneg v.z]
    ext
    · simpa [Vec3.zero] using mul_self_eq_zero.mp hx
    · simpa [Vec3.zero] using mul_self_eq_zero.mp hy
    · simpa [Vec3.zero] using mul_self_eq_zero.mp hz

/-- The parameter stored by HitRecord::new is the parameter it was given. -/
theorem HitRecord.new_t (p : Point3) (outward_normal : Vec3) (t : ℝ) (r : Ray)
    (mat : ℕ) : (HitRecord.new p outward_normal t r mat).t = t := rfl

/-- The hit point stored by Sphere::hit for an accepted root is `r.at root`. -/
theorem Sphere.mkRec_p (s : Sphere) (r : Ray) (root : ℝ) :
    (s.mkRec r root).p = r.at root := rfl

theorem Sphere.mkRec_t (s : Sphere) (r : Ray) (root : ℝ) :
    (s.mkRec r root).t = root := rfl

/-- C2 (amended): Sphere::hit returns none when the discriminant is negative;
otherwise it accepts the smaller root when it lies in the CLOSED interval
`[t_min, t_max]` (the code rejects a root only when `root < t_min || root >
t_max`), else the larger root when it lies in the closed interval, else
none; the smaller root never exceeds the larger, so when both are in range
the nearer is selected. -/
theorem sphere_hit_root_selection (s : Sphere) (r : Ray) (t_min t_max : ℝ) :
    (s.disc r < 0 → s.hit r t_min t_max = none) ∧
    (0 ≤ s.disc r →
      (t_min ≤ s.root1 r ∧ s.root1 r ≤ t_max →
        s.hit r t_min t_max = some (s.mkRec r (s.root1 r)) ∧
        (s.mkRec r (s.root1 r)).t = s.root1 r) ∧
      (¬(t_min ≤ s.root1 r ∧ s.root1 r ≤ t_max) →
        t_min ≤ s.root2 r ∧ s.root2 r ≤ t_max →
        s.hit r t_min t_max = some (s.mkRec r (s.root2 r)) ∧
        (s.mkRec r (s.root2 r)).t = s.root2 r) ∧
      (¬(t_min ≤ s.root1 r ∧ s.root1 r ≤ t_max) →
        ¬(t_min ≤ s.root2 r ∧ s.root2 r ≤ t_max) →
        s.hit r t_min t_max = none) ∧
      s.root1 r ≤ s.root2 r) := by
  constructor
  · intro hd
    rw [Sphere.hit, if_pos hd]
  · intro hd
    have hnd : ¬ (s.disc r < 0) := not_lt.mpr hd
    refine ⟨?_, ?_, ?_, ?_⟩
    · intro h1
      have hcond : ¬ (s.root1 r < t_min ∨ s.root1 r > t_max) := by
        rintro (hlt | hgt) <;> linarith [h1.1, h1.2]
      rw [Sphere.hit, if_neg hnd, if_neg hcond]
      exact ⟨rfl, rfl⟩
    · intro h1 h2
      have hcond : s.root1 r < t_min ∨ s.root1 r > t_max := by
        by_contra hc
        push_neg at hc
        exact h1 ⟨hc.1, hc.2⟩
      have hcond2 : ¬ (s.root2 r < t_min ∨ s.root2 r > t_max) := by
        rintro (hlt | hgt) <;> linarith [h2.1, h2.2]
      rw [Sphere.hit, if_neg hnd, if_pos hcond, if_neg hcond2]
      exact ⟨rfl, rfl⟩
    · intro h1 h2
      have hcond : s.root1 r < t_min ∨ s.root1 r > t_max := by
        by_contra hc
        push_neg at hc
        exact h1 ⟨hc.1, hc.2⟩
      have hcond2 : s.root2 r < t_min ∨ s.root2 r > t_max := by
        by_contra hc
        push_neg at hc
        exact h2 ⟨hc.1, hc.2⟩
      rw [Sphere.hit, if_neg hnd, if_pos hcond, if_pos hcond2]
    · have hsq := Real.sqrt_nonneg (s.disc r)
      have hqa : 0 ≤ s.qa r := (r.direction).length_squared_nonneg
      rcases eq_or_lt_of_le hqa with heq | hpos
      · rw [Sphere.root1, Sphere.root2, ← heq, div_zero, div_zero]
      · rw [Sphere.root1, Sphere.root2]
        exact (div_le_div_right hpos).mpr (by linarith)

/-- Counterexample to C2 as stated: for the unit sphere at the origin and
the ray from `(-2,0,0)` along `+x`, queried with `[t_min, t_max] = [1, 2]`,
the roots are 1 and 3; neither lies STRICTLY inside the open interval
`(1, 2)`, so the claim predicts no hit, yet the code accepts the smaller
root `1 = t_min` (closed-interval acceptance) and returns a hit. -/
theorem sphere_hit_open_interval_counterexample :
    Sphere.root1 ⟨⟨0, 0, 0⟩, 1, 0⟩ ⟨⟨-2, 0, 0⟩, ⟨1, 0, 0⟩⟩ = 1 ∧
    Sphere.root2 ⟨⟨0, 0, 0⟩, 1, 0⟩ ⟨⟨-2, 0, 0⟩, ⟨1, 0, 0⟩⟩ = 3 ∧
    ¬((1 : ℝ) < 1 ∧ (1 : ℝ) < 2) ∧
    ¬((1 : ℝ) < 3 ∧ (3 : ℝ) < 2) ∧
    Sphere.hit ⟨⟨0, 0, 0⟩, 1, 0⟩ ⟨⟨-2, 0, 0⟩, ⟨1, 0, 0⟩⟩ 1 2 =
      some (Sphere.mkRec ⟨⟨0, 0, 0⟩, 1, 0⟩ ⟨⟨-2, 0, 0⟩, ⟨1, 0, 0⟩⟩
        (Sphere.root1 ⟨⟨0, 0, 0⟩, 1, 0⟩ ⟨⟨-2, 0, 0⟩, ⟨1, 0, 0⟩⟩)) := by
  have hdisc : Sphere.disc ⟨⟨0, 0, 0⟩, 1, 0⟩ ⟨⟨-2, 0, 0⟩, ⟨1, 0, 0⟩⟩ = 1 := by
    norm_num [Sphere.disc, Sphere.half_b, Sphere.qa, Sphere.qc, Sphere.oc,
      Vec3.dot, Vec3.sub, Vec3.length_squared]
  have hhb : Sphere.half_b ⟨⟨0, 0, 0⟩, 1, 0⟩ ⟨⟨-2, 0, 0⟩, ⟨1, 0, 0⟩⟩ = -2 := by
    simp [Sphere.half_b, Sphere.oc, Vec3.dot, Vec3.sub]
  have hqa : Sphere.qa ⟨⟨0, 0, 0⟩, 1, 0⟩ ⟨⟨-2, 0, 0⟩, ⟨1, 0, 0⟩⟩ = 1 := by
    simp [Sphere.qa, Vec3.length_squared]
  have hr1 : Sphere.root1 ⟨⟨0, 0, 0⟩, 1, 0⟩ ⟨⟨-2, 0, 0⟩, ⟨1, 0, 0⟩⟩ = 1 := by
    rw [Sphere.root1, hdisc, Real.sqrt_one, hhb, hqa]
    norm_num
  have hr2 : Sphere.root2 ⟨⟨0, 0, 0⟩, 1, 0⟩ ⟨⟨-2, 0, 0⟩, ⟨1, 0, 0⟩⟩ = 3 := by
    rw [Sphere.root2, hdisc, Real.sqrt_one, hhb, hqa]
    norm_num
  refine ⟨hr1, hr2, by norm_num, by norm_num, ?_⟩
  rw [Sphere.hit, if_neg (by rw [hdisc]; norm_num),
    if_neg (by rw [hr1]; push_neg; norm_num)]

/-- Witness for C2 at a sphere the ray misses: center `(0,0,5)`, radius 1,
ray from the origin along `+x`; the discriminant is `-24 < 0`, so the
amended theorem yields no hit. -/
theorem sphere_hit_root_selection_witness :
    Sphere.hit ⟨⟨0, 0, 5⟩, 1, 0⟩ ⟨⟨0, 0, 0⟩, ⟨1, 0, 0⟩⟩ 0 100 = none := by
  refine (sphere_hit_root_selection ⟨⟨0, 0, 5⟩, 1, 0⟩ ⟨⟨0, 0, 0⟩, ⟨1, 0, 0⟩⟩
    0 100).1 ?_
  norm_num [Sphere.disc, Sphere.half_b, Sphere.qa, Sphere.qc, Sphere.oc,
    Vec3.dot, Vec3.sub, Vec3.length_squared]

/-- Any record returned by Sphere::hit is built from one of the two
candidate roots, and the discriminant was non-negative. -/
theorem sphere_hit_some {s : Sphere} {r : Ray} {t_min t_max : ℝ}
    {rec : HitRecord} (hhit : s.hit r t_min t_max = some rec) :
    0 ≤ s.disc r ∧
      (rec = s.mkRec r (s.root1 r) ∨ rec = s.mkRec r (s.root2 r)) := by
  rw [Sphere.hit] at hhit
  split_ifs at hhit with hd hc1 hc2
  · refine ⟨not_lt.mp hd, Or.inr ?_⟩
    injection hhit with h
    exact h.symm
  · refine ⟨not_lt.mp hd, Or.inl ?_⟩
    injection hhit with h
    exact h.symm

/-- Each accepted root satisfies the quadratic
`qa * t^2 + 2 * half_b * t + qc = 0` exactly (real arithmetic), provided the
direction is not degenerate and the discriminant is non-negative. -/
theorem sphere_root_is_root (s : Sphere) (r : Ray) (hqa : s.qa r ≠ 0)
    (hd : 0 ≤ s.disc r) (t : ℝ) (ht : t = s.root1 r ∨ t = s.root2 r) :
    s.qa r * t ^ 2 + 2 * s.half_b r * t + s.qc r = 0 := by
  have hsq : Real.sqrt (s.disc r) ^ 2 = s.disc r := Real.sq_sqrt hd
  have hdisc : s.disc r = s.half_b r * s.half_b r - s.qa r * s.qc r := rfl
  rcases ht with rfl | rfl
  · rw [Sphere.root1]
    field_simp
    nlinarith [hsq, hdisc]
  · rw [Sphere.root2]
    field_simp
    nlinarith [hsq, hdisc]

/-- The hit point of an accepted root lies exactly on the sphere:
`|p - center|^2 = radius^2`. -/
theorem sphere_hit_point_sq (s : Sphere) (r : Ray) (hqa : s.qa r ≠ 0)
    (hd : 0 ≤ s.disc r) (t : ℝ) (ht : t = s.root1 r ∨ t = s.root2 r) :
    (Vec3.sub (r.at t) s.center).length_squared = s.radius * s.radius := by
  have hquad := sphere_root_is_root s r hqa hd t ht
  simp only [Sphere.qa, Sphere.half_b, Sphere.qc, Sphere.oc, Vec3.dot,
    Vec3.sub, Vec3.length_squared] at hquad
  simp only [Ray.at, Vec3.add, Vec3.smul, Vec3.sub, Vec3.length_squared]
  linear_combination hquad

/-- C8: for a sphere of negative radius and any successful hit, the geometric
outward normal `(p - center) / radius` computed by Sphere::hit points toward
the centre: its dot product with `p - center` is negative. -/
theorem sphere_negative_radius_inward_normal (s : Sphere) (r : Ray)
    (t_min t_max : ℝ) (hrad : s.radius < 0) (hdir : r.direction ≠ Vec3.zero)
    (rec : HitRecord) (hhit : s.hit r t_min t_max = some rec) :
    Vec3.dot ((Vec3.sub rec.p s.center).divScalar s.radius)
      (Vec3.sub rec.p s.center) < 0 := by
  obtain ⟨hd, hcase⟩ := sphere_hit_some hhit
  have hqa : s.qa r ≠ 0 := ne_of_gt (Vec3.length_squared_pos hdir)
  have hdotform : ∀ v : Vec3, Vec3.dot (v.divScalar s.radius) v =
      1 / s.radius * v.length_squared := by
    intro v
    simp only [Vec3.divScalar, Vec3.smul, Vec3.dot, Vec3.length_squared]
    ring
  have hrne : s.radius ≠ 0 := ne_of_lt hrad
  have key : ∀ t, t = s.root1 r ∨ t = s.root2 r →
      Vec3.dot ((Vec3.sub (r.at t) s.center).divScalar s.radius)
        (Vec3.sub (r.at t) s.center) < 0 := by
    intro t ht
    rw [hdotform, sphere_hit_point_sq s r hqa hd t ht]
    have heq : 1 / s.radius * (s.radius * s.radius) = s.radius := by
      field_simp
    rw [heq]
    exact hrad
  rcases hcase with rfl | rfl
  · exact key (s.root1 r) (Or.inl rfl)
  · exact key (s.root2 r) (Or.inr rfl)

/-- Witness for C8: sphere of radius `-1` at the origin, ray from `(-2,0,0)`
along `+x`, interval `[0, 10]`; the accepted root is the smaller one and the
geometric normal points inward. -/
theorem sphere_negative_radius_inward_normal_witness :
    ((-1 : ℝ) < 0) ∧
    Vec3.dot
      ((Vec3.sub
        (Sphere.mkRec ⟨⟨0, 0, 0⟩, -1, 0⟩ ⟨⟨-2, 0, 0⟩, ⟨1, 0, 0⟩⟩
          (Sphere.root1 ⟨⟨0, 0, 0⟩, -1, 0⟩ ⟨⟨-2, 0, 0⟩, ⟨1, 0, 0⟩⟩)).p
        ⟨0, 0, 0⟩).divScalar (-1))
      (Vec3.sub
        (Sphere.mkRec ⟨⟨0, 0, 0⟩, -1, 0⟩ ⟨⟨-2, 0, 0⟩, ⟨1, 0, 0⟩⟩
          (Sphere.root1 ⟨⟨0, 0, 0⟩, -1, 0⟩ ⟨⟨-2, 0, 0⟩, ⟨1, 0, 0⟩⟩)).p
        ⟨0, 0, 0⟩) < 0 := by
  have hdisc : Sphere.disc ⟨⟨0, 0, 0⟩, -1, 0⟩ ⟨⟨-2, 0, 0⟩, ⟨1, 0, 0⟩⟩ = 1 := by
    norm_num [Sphere.disc, Sphere.half_b, Sphere.qa, Sphere.qc, Sphere.oc,
      Vec3.dot, Vec3.sub, Vec3.length_squared]
  have hhb : Sphere.half_b ⟨⟨0, 0, 0⟩, -1, 0⟩ ⟨⟨-2, 0, 0⟩, ⟨1, 0, 0⟩⟩ = -2 := by
    simp [Sphere.half_b, Sphere.oc, Vec3.dot, Vec3.sub]
  have hqa1 : Sphere.qa ⟨⟨0, 0, 0⟩, -1, 0⟩ ⟨⟨-2, 0, 0⟩, ⟨1, 0, 0⟩⟩ = 1 := by
    simp [Sphere.qa, Vec3.length_squared]
  have hr1 : Sphere.root1 ⟨⟨0, 0, 0⟩, -1, 0⟩ ⟨⟨-2, 0, 0⟩, ⟨1, 0, 0⟩⟩ = 1 := by
    rw [Sphere.root1, hdisc, Real.sqrt_one, hhb, hqa1]
    norm_num
  refine ⟨by norm_num,
    sphere_negative_radius_inward_normal ⟨⟨0, 0, 0⟩, -1, 0⟩
      ⟨⟨-2, 0, 0⟩, ⟨1, 0, 0⟩⟩ 0 10 (by norm_num)
      (by simp [Vec3.zero, Vec3.ext_iff]) _ ?_⟩
  rw [Sphere.hit, if_neg (by rw [hdisc]; norm_num),
    if_neg (by rw [hr1]; push_neg; norm_num)]

/-! Properties of `clamp` and `to_rgb8`. -/

theorem clamp_mono {x y mn mx : ℝ} (hbound : mn ≤ mx) (hxy : x ≤ y) :
    clamp x mn mx ≤ clamp y mn mx := by
  rw [clamp, clamp]
  split_ifs <;> linarith

theorem clamp_mem (x : ℝ) {mn mx : ℝ} (hbound : mn ≤ mx) :
    mn ≤ clamp x mn mx ∧ clamp x mn mx ≤ mx := by
  rw [clamp]
  split_ifs <;> constructor <;> linarith

/-- Each 8-bit channel value is at most 255: the clamp confines the operand
of the cast to `[0, 255.744]`. -/
theorem channel_le_255 (x : ℝ) : ⌊256 * clamp x 0 0.999⌋₊ ≤ 255 := by
  have h1 : 256 * clamp x 0 0.999 ≤ 255.744 := by
    have := (clamp_mem x (by norm_num : (0 : ℝ) ≤ 0.999)).2
    linarith
  calc ⌊256 * clamp x 0 0.999⌋₊ ≤ ⌊(255.744 : ℝ)⌋₊ := Nat.floor_le_floor h1
    _ = 255 := by norm_num [Nat.floor_eq_iff]

theorem channel_mono {x y : ℝ} (hxy : x ≤ y) :
    ⌊256 * clamp x 0 0.999⌋₊ ≤ ⌊256 * clamp y 0 0.999⌋₊ := by
  apply Nat.floor_le_floor
  have := clamp_mono (by norm_num : (0 : ℝ) ≤ 0.999) hxy
  linarith

/-- C6: for a fixed positive sample count, each output channel of `to_rgb8`
is monotone non-decreasing in the accumulated color (componentwise order on
non-negative inputs), and every output channel of `to_rgb8` lies in
`[0, 255]` (the lower bound holds because channels are naturals). -/
theorem to_rgb8_monotone_and_bounded (c1 c2 : Color) (n : ℕ) (hn : 0 < n)
    (h0 : 0 ≤ c1.x ∧ 0 ≤ c1.y ∧ 0 ≤ c1.z)
    (hle : c1.x ≤ c2.x ∧ c1.y ≤ c2.y ∧ c1.z ≤ c2.z) :
    ((to_rgb8 c1 n).1 ≤ (to_rgb8 c2 n).1 ∧
     (to_rgb8 c1 n).2.1 ≤ (to_rgb8 c2 n).2.1 ∧
     (to_rgb8 c1 n).2.2 ≤ (to_rgb8 c2 n).2.2) ∧
    (∀ c : Color, (to_rgb8 c n).1 ≤ 255 ∧ (to_rgb8 c n).2.1 ≤ 255 ∧
      (to_rgb8 c n).2.2 ≤ 255) := by
  have hscale : (0 : ℝ) ≤ 1 / (n : ℝ) := by positivity
  constructor
  · refine ⟨?_, ?_, ?_⟩ <;>
      exact channel_mono (Real.sqrt_le_sqrt
        (mul_le_mul_of_nonneg_right (by tauto) hscale))
  · intro c
    exact ⟨channel_le_255 _, channel_le_255 _, channel_le_255 _⟩

/-- Witness for C6 at `c1 = (0,0,0)`, `c2 = (1,1,1)`, one sample. -/
theorem to_rgb8_monotone_and_bounded_witness :
    (0 : ℕ) < 1 ∧
    (((to_rgb8 ⟨0, 0, 0⟩ 1).1 ≤ (to_rgb8 ⟨1, 1, 1⟩ 1).1 ∧
      (to_rgb8 ⟨0, 0, 0⟩ 1).2.1 ≤ (to_rgb8 ⟨1, 1, 1⟩ 1).2.1 ∧
      (to_rgb8 ⟨0, 0, 0⟩ 1).2.2 ≤ (to_rgb8 ⟨1, 1, 1⟩ 1).2.2) ∧
     (∀ c : Color, (to_rgb8 c 1).1 ≤ 255 ∧ (to_rgb8 c 1).2.1 ≤ 255 ∧
       (to_rgb8 c 1).2.2 ≤ 255)) :=
  ⟨Nat.one_pos,
    to_rgb8_monotone_and_bounded ⟨0, 0, 0⟩ ⟨1, 1, 1⟩ 1 Nat.one_pos
      (by norm_num) (by norm_num)⟩

/-- C4 (amended): each 8-bit output channel equals
`floor(256 * clamp(sqrt(mean), 0, 0.999))` where `mean = accumulated /
samples` is the arithmetic mean of the per-sample colors — the gamma-2
square root is applied to the mean itself, not to `mean / samples`. -/
theorem to_rgb8_gamma_of_mean (c : Color) (n : ℕ) (hn : 0 < n) :
    to_rgb8 c n =
      (⌊256 * clamp (Real.sqrt (c.x / (n : ℝ))) 0 0.999⌋₊,
       ⌊256 * clamp (Real.sqrt (c.y / (n : ℝ))) 0 0.999⌋₊,
       ⌊256 * clamp (Real.sqrt (c.z / (n : ℝ))) 0 0.999⌋₊) := by
  simp only [to_rgb8, one_div, ← div_eq_mul_inv]

/-- Witness for C4's amended theorem at `c = (4,4,4)`, 4 samples. -/
theorem to_rgb8_gamma_of_mean_witness :
    (0 : ℕ) < 4 ∧
    to_rgb8 ⟨4, 4, 4⟩ 4 =
      (⌊256 * clamp (Real.sqrt ((Vec3.mk 4 4 4).x / ((4 : ℕ) : ℝ))) 0 0.999⌋₊,
       ⌊256 * clamp (Real.sqrt ((Vec3.mk 4 4 4).y / ((4 : ℕ) : ℝ))) 0 0.999⌋₊,
       ⌊256 * clamp (Real.sqrt ((Vec3.mk 4 4 4).z / ((4 : ℕ) : ℝ))) 0 0.999⌋₊) :=
  ⟨by norm_num, to_rgb8_gamma_of_mean ⟨4, 4, 4⟩ 4 (by norm_num)⟩

/-- Counterexample to C4 as stated: for the accumulated color `(4,4,4)` over
4 samples the code computes `sqrt(4/4) = 1`, clamps to `0.999` and outputs
channel 255, while the claim's formula `sqrt(mean/samples) = sqrt(1/4) =
0.5` would output 128. -/
theorem to_rgb8_claim_counterexample :
    to_rgb8 ⟨4, 4, 4⟩ 4 = (255, 255, 255) ∧
    to_rgb8_claimed ⟨4, 4, 4⟩ 4 = (128, 128, 128) ∧
    to_rgb8 ⟨4, 4, 4⟩ 4 ≠ to_rgb8_claimed ⟨4, 4, 4⟩ 4 := by
  have harg : (4 : ℝ) * (1 / ((4 : ℕ) : ℝ)) = 1 := by norm_num
  have hchan : ⌊256 * clamp (Real.sqrt ((4 : ℝ) * (1 / ((4 : ℕ) : ℝ)))) 0
      0.999⌋₊ = 255 := by
    rw [harg, Real.sqrt_one]
    have hcl : clamp (1 : ℝ) 0 0.999 = 0.999 := by
      rw [clamp]
      norm_num
    rw [hcl]
    norm_num [Nat.floor_eq_iff]
  have harg2 : (4 : ℝ) / ((4 : ℕ) : ℝ) / ((4 : ℕ) : ℝ) = (1 / 2) ^ 2 := by
    norm_num
  have hchan2 : ⌊256 * clamp (Real.sqrt ((4 : ℝ) / ((4 : ℕ) : ℝ) /
      ((4 : ℕ) : ℝ))) 0 0.999⌋₊ = 128 := by
    rw [harg2, Real.sqrt_sq (by norm_num : (0 : ℝ) ≤ 1 / 2)]
    have hcl : clamp ((1 : ℝ) / 2) 0 0.999 = 1 / 2 := by
      rw [clamp]
      norm_num
    rw [hcl]
    norm_num [Nat.floor_eq_iff]
  refine ⟨?_, ?_, ?_⟩
  · simp only [to_rgb8]
    rw [Prod.mk.injEq, Prod.mk.injEq]
    exact ⟨hchan, hchan, hchan⟩
  · simp only [to_rgb8_claimed]
    rw [Prod.mk.injEq, Prod.mk.injEq]
    exact ⟨hchan2, hchan2, hchan2⟩
  · simp only [to_rgb8, to_rgb8_claimed]
    intro hcontra
    simp only [Prod.mk.injEq] at hcontra
    rw [hchan, hchan2] at hcontra
    exact absurd hcontra.1 (by norm_num)

/-- C3: for every ray `r` and every outward normal `n` given to HitRecord
construction, the record has `front_face = true` iff
`dot(r.direction, n) < 0`, and the stored (possibly flipped) normal always
satisfies `dot(r.direction, normal) <= 0`. -/
theorem hitRecord_new_front_face_spec (p : Point3) (outward_normal : Vec3)
    (t : ℝ) (r : Ray) (mat : ℕ) :
    ((HitRecord.new p outward_normal t r mat).front_face = true ↔
      Vec3.dot r.direction outward_normal < 0) ∧
    Vec3.dot r.direction (HitRecord.new p outward_normal t r mat).normal ≤ 0 := by
  by_cases h : Vec3.dot r.direction outward_normal < 0
  · constructor
    · simp [HitRecord.new, h]
    · simp [HitRecord.new, h]
      exact le_of_lt h
  · constructor
    · simp [HitRecord.new, h]
    · simp [HitRecord.new, h, Vec3.dot_neg]
      linarith [not_lt.mp h]

/-- C10: reflection across a unit normal is an involution and preserves
length (exact real arithmetic). -/
theorem reflect_involution_and_isometry (v n : Vec3) (h : n.length = 1) :
    Vec3.reflect (Vec3.reflect v n) n = v ∧
    (Vec3.reflect v n).length = v.length := by
  have hsq : n.x * n.x + n.y * n.y + n.z * n.z = 1 := by
    have h1 : n.length_squared = 1 := by
      have := Real.sqrt_eq_one.mp h
      simpa [Vec3.length] using Real.sqrt_eq_one.mp h
    simpa [Vec3.length_squared] using h1
  constructor
  · ext
    · simp only [Vec3.reflect, Vec3.sub, Vec3.smul, Vec3.dot]
      linear_combination (4 * (v.x * n.x + v.y * n.y + v.z * n.z) * n.x) * hsq
    · simp only [Vec3.reflect, Vec3.sub, Vec3.smul, Vec3.dot]
      linear_combination (4 * (v.x * n.x + v.y * n.y + v.z * n.z) * n.y) * hsq
    · simp only [Vec3.reflect, Vec3.sub, Vec3.smul, Vec3.dot]
      linear_combination (4 * (v.x * n.x + v.y * n.y + v.z * n.z) * n.z) * hsq
  · have hls : (Vec3.reflect v n).length_squared = v.length_squared := by
      simp only [Vec3.reflect, Vec3.sub, Vec3.smul, Vec3.dot,
        Vec3.length_squared]
      linear_combination
        (4 * (v.x * n.x + v.y * n.y + v.z * n.z) ^ 2) * hsq
    simp only [Vec3.length, hls]

/-- Witness for C10 at `v = (1, 2, 3)`, `n = (0, 0, 1)`. -/
theorem reflect_involution_and_isometry_witness :
    (Vec3.mk 0 0 1).length = 1 ∧
    (Vec3.reflect (Vec3.reflect ⟨1, 2, 3⟩ ⟨0, 0, 1⟩) ⟨0, 0, 1⟩ = ⟨1, 2, 3⟩ ∧
      (Vec3.reflect ⟨1, 2, 3⟩ ⟨0, 0, 1⟩).length = (Vec3.mk 1 2 3).length) := by
  have hn : (Vec3.mk 0 0 1).length = 1 := by
    simp [Vec3.length, Vec3.length_squared]
  exact ⟨hn, reflect_involution_and_isometry ⟨1, 2, 3⟩ ⟨0, 0, 1⟩ hn⟩

/-- C9: `ray_color` is total (it is a Lean function defined by structural
recursion on the depth); it returns black at depth zero, and the number of
recursive bounces it performs is at most the depth, for every scene and
every scatter behaviour. -/
theorem ray_color_depth_bounded (scatter : Ray → HitRecord → Option (Color × Ray))
    (world : List Surface) :
    (∀ r, ray_color scatter world r 0 = Vec3.zero) ∧
    (∀ r depth, ray_bounce_count scatter world r depth ≤ depth) := by
  refine ⟨fun _ => rfl, ?_⟩
  intro r depth
  induction depth generalizing r with
  | zero => exact le_refl 0
  | succ d ih =>
    rw [ray_bounce_count]
    cases hw : worldHit world r 0.001 with
    | none => simp
    | some rec0 =>
      dsimp only
      cases hs : scatter r rec0 with
      | none => simp
      | some pr =>
        obtain ⟨att, sc⟩ := pr
        dsimp only
        have h2 := ih sc
        omega

/-- C5: on the empty scene, with a non-zero ray direction and depth at least
one, `ray_color` returns exactly the background gradient
`(1 - t) * (1,1,1) + t * (0.5, 0.7, 1.0)` with
`t = 0.5 * (unit(direction).y + 1)`. -/
theorem ray_color_empty_scene (scatter : Ray → HitRecord → Option (Color × Ray))
    (r : Ray) (depth : ℕ) (hdir : r.direction ≠ Vec3.zero)
    (hdepth : 1 ≤ depth) :
    ray_color scatter [] r depth =
      Vec3.add
        (Vec3.smul (1 - 0.5 * (r.direction.unit_vector.y + 1)) ⟨1, 1, 1⟩)
        (Vec3.smul (0.5 * (r.direction.unit_vector.y + 1)) ⟨0.5, 0.7, 1.0⟩) := by
  obtain ⟨d, rfl⟩ : ∃ d, depth = d + 1 := ⟨depth - 1, by omega⟩
  rw [ray_color]
  simp [worldHit, listHitGo]

/-- Witness for C5 at the ray from the origin toward `(0, 0, -1)`, depth 1. -/
theorem ray_color_empty_scene_witness :
    (Ray.mk ⟨0, 0, 0⟩ ⟨0, 0, -1⟩).direction ≠ Vec3.zero ∧ 1 ≤ 1 ∧
    ray_color (fun _ _ => none) [] ⟨⟨0, 0, 0⟩, ⟨0, 0, -1⟩⟩ 1 =
      Vec3.add
        (Vec3.smul
          (1 - 0.5 * ((Ray.mk ⟨0, 0, 0⟩ ⟨0, 0, -1⟩).direction.unit_vector.y + 1))
          ⟨1, 1, 1⟩)
        (Vec3.smul
          (0.5 * ((Ray.mk ⟨0, 0, 0⟩ ⟨0, 0, -1⟩).direction.unit_vector.y + 1))
          ⟨0.5, 0.7, 1.0⟩) := by
  have hdir : (Ray.mk ⟨0, 0, 0⟩ (Vec3.mk 0 0 (-1))).direction ≠ Vec3.zero := by
    simp [Vec3.zero, Vec3.ext_iff]
  exact ⟨hdir, le_refl 1,
    ray_color_empty_scene (fun _ _ => none) ⟨⟨0, 0, 0⟩, ⟨0, 0, -1⟩⟩ 1 hdir
      (le_refl 1)⟩

end RayTracer
